/-
Verification of the vector-math primitives in `lib/crf/src/vecmath.h`
(crfsuite).  The scalar type `floatval_t` (double) is embedded as `ℚ` with
exact arithmetic: every decimal literal of the source becomes the exact
rational it denotes, and the IEEE rounding of individual operations is not
modelled.  Division by zero follows Lean's `ℚ` convention (`a / 0 = 0`);
the reachable divisions of the source are nonzero.  Buffers are embedded
as total maps `ℕ → ℚ` (index to stored value) together with the explicit
length `n` the C functions receive; `for` loops become fuel-free
tail-recursive functions on the loop index.
-/
import Mathlib

namespace Vecmath

/-! ### Constants of `fastexp` (vecmath.h lines 41-46), as exact rationals -/

/-- `MAXLOG = 7.08396418532264106224E2` — high clamp threshold (log 2^1022). -/
def MAXLOG : ℚ := 708.396418532264106224

/-- `MINLOG = -7.08396418532264106224E2` — low clamp threshold (log 2^-1022). -/
def MINLOG : ℚ := -708.396418532264106224

/-- `LOG2E = 1.4426950408889634073599` — the source's decimal constant for 1/log 2. -/
def LOG2E : ℚ := 1.4426950408889634073599

/-- The source's constant named `INFINITY = 1.79769313486231570815E308`.
Despite its name this is the decimal expansion of `DBL_MAX`, the largest
finite IEEE-754 double, not the IEEE infinity. -/
def INFINITY : ℚ := 1.79769313486231570815e308

/-- `C1 = 6.93145751953125E-1` — high part of log 2. -/
def C1 : ℚ := 0.693145751953125

/-- `C2 = 1.42860682030941723212E-6` — low part of log 2. -/
def C2 : ℚ := 0.00000142860682030941723212

/-! ### The C `(int)` cast: truncation toward zero -/

/-- Truncation of a rational toward zero, the semantics of C's `(int)`
conversion from `double` (C99 6.3.1.4: "the fractional part is discarded").
The `int` range is not modelled: in `fastexp` the cast argument is clamped
to about `[-1021.6, 1022.6]`, far inside 32-bit range. -/
def truncQ (q : ℚ) : ℤ := if q < 0 then ⌈q⌉ else ⌊q⌋

/-! ### fastexp, split into its named intermediate quantities
(vecmath.h lines 39-95).  `nred` is the integer `n` of the range reduction,
`xred` the reduced argument after the two Cody-Waite subtractions, `Pval`
and `Qval` the Horner evaluations of the two polynomials. -/

/-- `n = (int)(LOG2E * x + 0.5)` (line 61). -/
def nred (x : ℚ) : ℤ := truncQ (LOG2E * x + 0.5)

/-- Lines 62-64: `px = (double)n; x -= px * C1; x -= px * C2`. -/
def xred (x : ℚ) : ℚ := (x - (nred x : ℚ) * C1) - (nred x : ℚ) * C2

/-- Lines 67-73: Horner evaluation `px = x * P(x**2)` on the reduced argument. -/
def Pval (x : ℚ) : ℚ :=
  ((1.26177193074810590878e-4 * (xred x * xred x) + 3.02994407707441961300e-2)
      * (xred x * xred x) + 9.99999999999999999910e-1) * xred x

/-- Lines 75-82: Horner evaluation `qx = Q(x**2)` on the reduced argument. -/
def Qval (x : ℚ) : ℚ :=
  ((3.00198505138664455042e-6 * (xred x * xred x) + 2.52448340349684104192e-3)
      * (xred x * xred x) + 2.27265548208155028766e-1) * (xred x * xred x)
    + 2.00000000000000000009e0

/-! ### The union-based construction of 2^n (lines 50-53 and 88-92)

The source zeroes the 8-byte union (`u.d = 0`; the double `0.0` has the
all-zeroes byte pattern), then stores into bytes 7 and 6.  On the
little-endian machine the code assumes, byte `c[k]` contributes
`c[k] * 2^(8*k)` to the 64-bit pattern, so after the two stores the
pattern is `c[7] * 2^56 + c[6] * 2^48`.  Both stored values are below 256
(they are masked to 7 and to 8 bits), so the `(unsigned char)` casts are
the identity. -/

/-- The 64-bit pattern the union holds after `u.d = 0;
u.c[7] = (n >> 4) & 0x7F; u.c[6] = (n & 0x0F) << 4` with `n` the biased
exponent (already incremented by 1023, line 90).  `m.toNat` reflects that
the reachable biased exponents are nonnegative (they lie in [2, 2045]);
C's `>>` on a negative `int` would be implementation-defined. -/
def pow2bits (m : ℤ) : ℕ :=
  ((m.toNat >>> 4) &&& 0x7F) * 2 ^ 56 + ((m.toNat &&& 0x0F) <<< 4) * 2 ^ 48

/-- Reading the union back as a double: the value of a 64-bit IEEE-754
binary64 bit pattern.  Sign is bit 63, biased exponent bits 62-52,
mantissa bits 51-0.  The exponent field 0x7FF encodes infinities and NaNs,
which have no rational value; that branch returns 0 and is unreachable
here (the constructed exponent fields lie in [2, 2045], proved below). -/
def decodeBits (b : ℕ) : ℚ :=
  if (b >>> 52) &&& 0x7FF = 0 then
    (if b >>> 63 = 1 then (-1 : ℚ) else 1) * (b &&& (2 ^ 52 - 1) : ℕ) * 2 ^ (-(1074 : ℤ))
  else if (b >>> 52) &&& 0x7FF = 0x7FF then 0
  else
    (if b >>> 63 = 1 then (-1 : ℚ) else 1)
      * (1 + (b &&& (2 ^ 52 - 1) : ℕ) / 2 ^ 52)
      * 2 ^ ((((b >>> 52) &&& 0x7FF : ℕ) : ℤ) - 1023)

/-- `fastexp` (lines 39-95): clamp, range-reduce, evaluate the rational
minimax approximant, rebuild `2^n` through the union, multiply. -/
def fastexp (x : ℚ) : ℚ :=
  if MAXLOG < x then INFINITY
  else if x < MINLOG then 0
  else
    (1.0 + 2.0 * (Pval x / (Qval x - Pval x)))
      * decodeBits (pow2bits (nred x + 1023))

/-! ### Loop combinators

The `for (i = 0; i < n; ++i)` loops of vecmath.h come in two shapes:
in-place update loops (`x[i] = f(..., x[i])`) and read-only reduction
loops (`s += g(...)`).  `mapLoop` threads the buffer through an update
loop; `rwLoop` threads an arbitrary state (the buffers the loop could
write) together with the accumulator, so that "the loop never writes"
is a provable property rather than a modelling assumption. -/

/-- In-place loop: starting at index `i`, while `i < n` replace the cell
`st i` by `f i (st i)` and advance. -/
def mapLoop {β : Type} (f : ℕ → β → β) (n : ℕ) (st : ℕ → β) (i : ℕ) : ℕ → β :=
  if h : i < n then mapLoop f n (Function.update st i (f i (st i))) (i + 1) else st
termination_by n - i
decreasing_by omega

/-- Reduction loop: starting at index `i` with accumulator `s`, while
`i < n` run the body (which may change the state and the accumulator)
and advance; return the final state and accumulator. -/
def rwLoop {σ α : Type} (body : σ → ℕ → α → σ × α) (n : ℕ) (st : σ) (i : ℕ) (s : α) :
    σ × α :=
  if h : i < n then rwLoop body n (body st i s).1 (i + 1) (body st i s).2 else (st, s)
termination_by n - i
decreasing_by omega

/-! ### The vector operations (vecmath.h lines 98-209) -/

/-- `veczero` (lines 98-101): `memset(x, 0, sizeof(floatval_t) * n)` — the
first `n` cells become `0.0` (the all-zero-bytes double), the rest of the
buffer is untouched. -/
def veczero (x : ℕ → ℚ) (n : ℕ) : ℕ → ℚ :=
  fun i => if i < n then 0 else x i

/-- `vecadd` (lines 116-122): `y[i] += x[i]`. -/
def vecadd (y x : ℕ → ℚ) (n : ℕ) : ℕ → ℚ :=
  mapLoop (fun i v => v + x i) n y 0

/-- `vecaadd` (lines 124-130): `y[i] += a * x[i]`. -/
def vecaadd (y : ℕ → ℚ) (a : ℚ) (x : ℕ → ℚ) (n : ℕ) : ℕ → ℚ :=
  mapLoop (fun i v => v + a * x i) n y 0

/-- `vecexp` (lines 193-199): `x[i] = (x[i] == 0. ? 1. : fastexp(x[i]))`. -/
def vecexp (x : ℕ → ℚ) (n : ℕ) : ℕ → ℚ :=
  mapLoop (fun _ v => if v = 0 then 1 else fastexp v) n x 0

/-- `vecdot` (lines 172-180): `s = 0; for i < n: s += x[i] * y[i]`.  The
state component carries both buffers so the loop's (absence of) writes is
part of the result. -/
def vecdot (x y : ℕ → ℚ) (n : ℕ) : ((ℕ → ℚ) × (ℕ → ℚ)) × ℚ :=
  rwLoop (fun st i s => (st, s + st.1 i * st.2 i)) n (x, y) 0 0

/-- `vecsum` (lines 182-191): `s = 0.; for i < n: s += x[i]`. -/
def vecsum (x : ℕ → ℚ) (n : ℕ) : (ℕ → ℚ) × ℚ :=
  rwLoop (fun st i s => (st, s + st i)) n x 0 0

/-- `vecsumlog` (lines 201-209): `s = 0.; for i < n: s += log(x[i])`.
`log` is libm's natural logarithm, an external collaborator of this
repository; it is taken as an arbitrary scalar function parameter. -/
def vecsumlog (log : ℚ → ℚ) (x : ℕ → ℚ) (n : ℕ) : (ℕ → ℚ) × ℚ :=
  rwLoop (fun st i s => (st, s + log (st i))) n x 0 0

/-! ### Signed zero

`ℚ` identifies `-0.0` and `0.0`; to state the behaviour of `vecexp` on the
IEEE value `-0.0` the scalar is refined to a rational together with a
negative-zero marker.  `F.mk 0 true` is `-0.0`, `F.mk 0 false` is `+0.0`,
and for `q ≠ 0` the marker is irrelevant.  The C comparison `x[i] == 0.`
compares numeric values, and both signed zeros have numeric value zero, so
its embedding tests only the rational component. -/

/-- A double refined with a sign marker for zero: `q` is the numeric
value, `negZero` records a negative zero when `q = 0`. -/
structure F where
  q : ℚ
  negZero : Bool
deriving DecidableEq

/-- `vecexp` over signed-zero-aware scalars: the test `x[i] == 0.` is
true for both `+0.0` and `-0.0` (IEEE-754 equality compares values, and
both zeros are equal to `0.`); both produced values, `1.` and
`fastexp(x[i])`, are non-negatively-signed. -/
def vecexpF (x : ℕ → F) (n : ℕ) : ℕ → F :=
  mapLoop (fun _ v => if v.q = 0 then F.mk 1 false else F.mk (fastexp v.q) false) n x 0

/-! ### Loop characterizations -/

/-- Each cell visited by the remaining iterations (`i ≤ j < n`) ends as
`f j` of its current value; every other cell is untouched.  (A cell is
visited exactly once, so "current" is also "original".) -/
lemma mapLoop_get_aux {β : Type} (f : ℕ → β → β) (n : ℕ) :
    ∀ (k i : ℕ), n - i ≤ k → ∀ (st : ℕ → β) (j : ℕ),
      mapLoop f n st i j = if i ≤ j ∧ j < n then f j (st j) else st j := by
  intro k
  induction k with
  | zero =>
    intro i hk st j
    rw [mapLoop]
    have hni : ¬ i < n := by omega
    simp only [hni, dite_false]
    have : ¬ (i ≤ j ∧ j < n) := by omega
    simp [this]
  | succ k ih =>
    intro i hk st j
    rw [mapLoop]
    by_cases h : i < n
    · simp only [h, dite_true]
      rw [ih (i + 1) (by omega)]
      rcases Nat.lt_trichotomy j i with hj | hj | hj
      · have h1 : ¬ (i + 1 ≤ j ∧ j < n) := by omega
        have h2 : ¬ (i ≤ j ∧ j < n) := by omega
        simp [h1, h2, Function.update_noteq (by omega : j ≠ i)]
      · subst hj
        have h1 : ¬ (j + 1 ≤ j ∧ j < n) := by omega
        have h2 : j ≤ j ∧ j < n := by omega
        simp [h1, h2, Function.update_same]
      · have h1 : (i + 1 ≤ j ∧ j < n) ↔ (i ≤ j ∧ j < n) := by omega
        simp [h1, Function.update_noteq (by omega : j ≠ i)]
    · simp only [h, dite_false]
      have : ¬ (i ≤ j ∧ j < n) := by omega
      simp [this]

/-- Starting the in-place loop at index 0: cell `j` ends as `f j (st j)`
when `j < n` and keeps its value otherwise. -/
lemma mapLoop_get {β : Type} (f : ℕ → β → β) (n : ℕ) (st : ℕ → β) (j : ℕ) :
    mapLoop f n st 0 j = if j < n then f j (st j) else st j := by
  have h := mapLoop_get_aux f n (n - 0) 0 (le_refl _) st j
  simpa using h

/-- A reduction loop whose body leaves the state unchanged returns the
initial state, and its accumulator is the left fold of the body's value
function over the remaining indices `i, i+1, …, n-1` in that order. -/
lemma rwLoop_pure {σ α : Type} (body : σ → ℕ → α → σ × α)
    (hb : ∀ st i s, (body st i s).1 = st) (n : ℕ) :
    ∀ (k i : ℕ), n - i ≤ k → ∀ (st : σ) (s : α),
      rwLoop body n st i s =
        (st, List.foldl (fun a j => (body st j a).2) s (List.range' i (n - i))) := by
  intro k
  induction k with
  | zero =>
    intro i hk st s
    rw [rwLoop]
    have hni : ¬ i < n := by omega
    have h0 : n - i = 0 := by omega
    simp [hni, h0]
  | succ k ih =>
    intro i hk st s
    rw [rwLoop]
    by_cases h : i < n
    · simp only [h, dite_true]
      rw [hb, ih (i + 1) (by omega)]
      obtain ⟨m, hm⟩ : ∃ m, n - i = m + 1 := ⟨n - i - 1, by omega⟩
      have hm1 : n - (i + 1) = m := by omega
      rw [hm, hm1, List.range'_succ, List.foldl_cons]
    · simp only [h, dite_false]
      have h0 : n - i = 0 := by omega
      simp [h0]

/-! ### The union construction builds exactly 2^n -/

/-- For biased exponents below 2^11 the two byte stores assemble the
pattern `m * 2^52`: the 11-bit value lands exactly in the exponent field. -/
lemma pow2bits_val (m : ℤ) (h1 : 0 ≤ m) (h2 : m < 2048) :
    pow2bits m = m.toNat * 2 ^ 52 := by
  have hb : m.toNat < 2048 := by omega
  unfold pow2bits
  have e1 : m.toNat >>> 4 = m.toNat / 16 := by
    rw [Nat.shiftRight_eq_div_pow]
  have e2 : m.toNat / 16 &&& 0x7F = m.toNat / 16 := by
    have h7 : (0x7F : ℕ) = 2 ^ 7 - 1 := by norm_num
    rw [h7, Nat.and_pow_two_sub_one_eq_mod]
    exact Nat.mod_eq_of_lt (by omega)
  have e3 : m.toNat &&& 0x0F = m.toNat % 16 := by
    have h4 : (0x0F : ℕ) = 2 ^ 4 - 1 := by norm_num
    rw [h4, Nat.and_pow_two_sub_one_eq_mod]
  rw [e1, e2, e3, Nat.shiftLeft_eq]
  norm_num
  omega

/-- The three IEEE-754 fields of the constructed pattern: sign bit 0,
biased exponent field exactly `m`, mantissa 0. -/
lemma pow2bits_fields (m : ℤ) (h1 : 2 ≤ m) (h2 : m ≤ 2045) :
    pow2bits m >>> 63 = 0
    ∧ (pow2bits m >>> 52) &&& 0x7FF = m.toNat
    ∧ pow2bits m &&& (2 ^ 52 - 1) = 0 := by
  rw [pow2bits_val m (by omega) (by omega)]
  have hb : m.toNat < 2046 := by omega
  refine ⟨?_, ?_, ?_⟩
  · rw [Nat.shiftRight_eq_div_pow]
    apply Nat.div_eq_of_lt
    calc m.toNat * 2 ^ 52 < 2048 * 2 ^ 52 :=
          Nat.mul_lt_mul_of_lt_of_le (by omega) (le_refl _) (by norm_num)
      _ = 2 ^ 63 := by norm_num
  · rw [Nat.shiftRight_eq_div_pow, Nat.mul_div_cancel _ (by norm_num : 0 < 2 ^ 52)]
    have h11 : (0x7FF : ℕ) = 2 ^ 11 - 1 := by norm_num
    rw [h11, Nat.and_pow_two_sub_one_eq_mod]
    exact Nat.mod_eq_of_lt (by omega)
  · rw [Nat.and_pow_two_sub_one_eq_mod, Nat.mul_mod_left]

/-- Decoding the constructed pattern: for biased exponents in the normal
range reached by `fastexp`, the union holds exactly the double `2^(m-1023)`
(sign 0, exponent field `m`, mantissa 0). -/
lemma decodeBits_pow2 (m : ℤ) (h1 : 2 ≤ m) (h2 : m ≤ 2045) :
    decodeBits (pow2bits m) = (2 : ℚ) ^ (m - 1023) := by
  obtain ⟨es, ee, em⟩ := pow2bits_fields m h1 h2
  have hb2 : 2 ≤ m.toNat := by omega
  have hb : m.toNat < 2046 := by omega
  unfold decodeBits
  rw [ee, es, em]
  have hne0 : m.toNat ≠ 0 := by omega
  have hne7 : m.toNat ≠ 0x7FF := by omega
  have hcast : ((m.toNat : ℤ)) = m := Int.toNat_of_nonneg (by omega)
  simp only [hne0, hne7, if_false, hcast]
  norm_num

/-! ### Bounds on the range-reduction integer -/

/-- Truncation toward zero of a value below a positive integer bound. -/
lemma truncQ_le (t : ℚ) (hi : ℤ) (h0 : 1 ≤ hi) (h : t < (hi : ℚ)) :
    truncQ t ≤ hi - 1 := by
  unfold truncQ
  by_cases ht : t < 0
  · simp only [ht, if_true]
    have : ⌈t⌉ ≤ (0 : ℤ) := Int.ceil_le.mpr (by exact_mod_cast le_of_lt ht)
    omega
  · simp only [ht, if_false]
    have := Int.floor_lt.mpr h
    omega

/-- Truncation toward zero of a value above a negative integer bound. -/
lemma truncQ_ge (t : ℚ) (lo : ℤ) (h0 : lo ≤ -1) (h : (lo : ℚ) < t) :
    lo + 1 ≤ truncQ t := by
  unfold truncQ
  by_cases ht : t < 0
  · simp only [ht, if_true]
    have := Int.lt_ceil.mpr h
    omega
  · simp only [ht, if_false]
    push_neg at ht
    have : (0 : ℤ) ≤ ⌊t⌋ := Int.floor_nonneg.mpr ht
    omega

/-- For clamped inputs the range-reduction integer stays within
`[-1021, 1022]`, so the biased exponent `n + 1023` lies in `[2, 2045]`:
always a normal, finite double. -/
lemma nred_bounds {x : ℚ} (h1 : MINLOG ≤ x) (h2 : x ≤ MAXLOG) :
    -1021 ≤ nred x ∧ nred x ≤ 1022 := by
  have hL : (0 : ℚ) ≤ LOG2E := by norm_num [LOG2E]
  have hup : LOG2E * x + 0.5 < ((1023 : ℤ) : ℚ) := by
    have hm : LOG2E * x ≤ LOG2E * MAXLOG := mul_le_mul_of_nonneg_left h2 hL
    have : LOG2E * MAXLOG + 0.5 < 1023 := by norm_num [LOG2E, MAXLOG]
    push_cast
    linarith
  have hlo : (((-1022) : ℤ) : ℚ) < LOG2E * x + 0.5 := by
    have hm : LOG2E * MINLOG ≤ LOG2E * x := mul_le_mul_of_nonneg_left h1 hL
    have : (-1022 : ℚ) < LOG2E * MINLOG + 0.5 := by norm_num [LOG2E, MINLOG]
    push_cast
    linarith
  constructor
  · have := truncQ_ge (LOG2E * x + 0.5) (-1022) (by omega) hlo
    unfold nred
    omega
  · have := truncQ_le (LOG2E * x + 0.5) 1023 (by omega) hup
    unfold nred
    omega

/-- On clamped inputs `fastexp` takes the computation branch. -/
lemma fastexp_in_range {x : ℚ} (h1 : MINLOG ≤ x) (h2 : x ≤ MAXLOG) :
    fastexp x =
      (1 + 2 * (Pval x / (Qval x - Pval x)))
        * decodeBits (pow2bits (nred x + 1023)) := by
  unfold fastexp
  rw [if_neg (not_lt.mpr h2), if_neg (not_lt.mpr h1)]
  norm_num

/-! ### Claim theorems -/

/-- C4: in `fastexp`'s reconstruction step, every in-range input yields
`(1 + 2r) * 2^n` with `r = P/(Q - P)`, where the factor `2^n` is obtained
by writing a bit pattern whose sign bit is 0, whose biased exponent field
is `n + 1023`, and whose mantissa is zero, and reinterpreting it as a
double — no power function is involved. -/
theorem fastexp_reconstruction (x : ℚ) (h1 : MINLOG ≤ x) (h2 : x ≤ MAXLOG) :
    fastexp x = (1 + 2 * (Pval x / (Qval x - Pval x))) * (2 : ℚ) ^ nred x
    ∧ pow2bits (nred x + 1023) >>> 63 = 0
    ∧ (pow2bits (nred x + 1023) >>> 52) &&& 0x7FF = (nred x + 1023).toNat
    ∧ pow2bits (nred x + 1023) &&& (2 ^ 52 - 1) = 0
    ∧ decodeBits (pow2bits (nred x + 1023)) = (2 : ℚ) ^ nred x := by
  obtain ⟨hlo, hhi⟩ := nred_bounds h1 h2
  obtain ⟨es, ee, em⟩ := pow2bits_fields (nred x + 1023) (by omega) (by omega)
  have hd := decodeBits_pow2 (nred x + 1023) (by omega) (by omega)
  have hsub : nred x + 1023 - 1023 = nred x := by ring
  rw [hsub] at hd
  exact ⟨by rw [fastexp_in_range h1 h2, hd], es, ee, em, hd⟩

/-- Witness for C4 at the concrete input `x = 0`. -/
theorem fastexp_reconstruction_witness :
    MINLOG ≤ 0 ∧ (0 : ℚ) ≤ MAXLOG ∧
      (fastexp 0 = (1 + 2 * (Pval 0 / (Qval 0 - Pval 0))) * (2 : ℚ) ^ nred 0
       ∧ pow2bits (nred 0 + 1023) >>> 63 = 0
       ∧ (pow2bits (nred 0 + 1023) >>> 52) &&& 0x7FF = (nred 0 + 1023).toNat
       ∧ pow2bits (nred 0 + 1023) &&& (2 ^ 52 - 1) = 0
       ∧ decodeBits (pow2bits (nred 0 + 1023)) = (2 : ℚ) ^ nred 0) :=
  ⟨by norm_num [MINLOG], by norm_num [MAXLOG],
    fastexp_reconstruction 0 (by norm_num [MINLOG]) (by norm_num [MAXLOG])⟩

/-- C1 counterexample: at `x = 709` (above `MAXLOG`) the value returned is
the source's constant `1.79769313486231570815E308` — the decimal expansion
of `DBL_MAX`, the largest *finite* double — and it is strictly below
`2^1024`, the least magnitude at which a binary64 value is infinite.  The
claim that `fastexp` returns positive infinity above the high clamp is
therefore false; the low-clamp half of the claim does hold. -/
theorem fastexp_high_clamp_finite :
    fastexp 709 = 1.79769313486231570815e308 ∧ fastexp 709 < 2 ^ 1024 := by
  have h : fastexp 709 = INFINITY := by
    unfold fastexp
    rw [if_pos (by norm_num [MAXLOG])]
  refine ⟨by rw [h]; norm_num [INFINITY], ?_⟩
  rw [h]
  norm_num [INFINITY]

/-- C1 amended: for `x > MAXLOG`, `fastexp` returns the constant the
source names `INFINITY`, whose value `1.79769313486231570815E308` is
`DBL_MAX`, a finite double (strictly below the binary64 overflow threshold
`2^1024`); for `x < MINLOG` it returns `0.0`. -/
theorem fastexp_clamp (x y : ℚ) (hx : MAXLOG < x) (hy : y < MINLOG) :
    fastexp x = 1.79769313486231570815e308
    ∧ fastexp x < 2 ^ 1024
    ∧ fastexp y = 0 := by
  have hx1 : fastexp x = INFINITY := by
    unfold fastexp
    rw [if_pos hx]
  have hy1 : fastexp y = 0 := by
    unfold fastexp
    have hlt : ¬ MAXLOG < y := by
      have : MINLOG < MAXLOG := by norm_num [MINLOG, MAXLOG]
      push_neg
      linarith
    rw [if_neg hlt, if_pos hy]
  refine ⟨by rw [hx1]; norm_num [INFINITY], ?_, hy1⟩
  rw [hx1]
  norm_num [INFINITY]

/-- Witness for the amended C1 at `x = 709`, `y = -709`. -/
theorem fastexp_clamp_witness :
    MAXLOG < 709 ∧ (-709 : ℚ) < MINLOG ∧
      (fastexp 709 = 1.79769313486231570815e308
       ∧ fastexp 709 < 2 ^ 1024
       ∧ fastexp (-709) = 0) :=
  ⟨by norm_num [MAXLOG], by norm_num [MINLOG],
    fastexp_clamp 709 (-709) (by norm_num [MAXLOG]) (by norm_num [MINLOG])⟩

/-- C2 counterexample: at the in-range input `x = -1` the source's
`n = (int)(LOG2E * x + 0.5)` gives `0` (the cast truncates `-0.9427…`
toward zero), while rounding `x * LOG2E = -1.4427…` to the nearest integer
gives `-1`.  The claim `n = round(x * LOG2E)` is therefore false for
negative arguments. -/
theorem nred_not_round_at_neg_one :
    MINLOG ≤ -1 ∧ (-1 : ℚ) ≤ MAXLOG
    ∧ nred (-1) = 0 ∧ round (LOG2E * (-1 : ℚ)) = -1 := by
  refine ⟨by norm_num [MINLOG], by norm_num [MAXLOG], ?_, ?_⟩
  · unfold nred truncQ
    rw [if_pos (by norm_num [LOG2E])]
    norm_num [LOG2E]
  · rw [round_eq]
    norm_num [LOG2E]

/-- C2 amended: within the clamp bounds the range-reduction integer is the
truncation *toward zero* of `LOG2E * x + 0.5` (C's `(int)` cast); for
`x ≥ 0` this coincides with rounding `x * LOG2E` to the nearest integer
(half away from zero), but not in general for negative `x`.  The reduced
argument is obtained by subtracting `n * C1` and then `n * C2`. -/
theorem nred_trunc_xred (x : ℚ) (h1 : MINLOG ≤ x) (h2 : x ≤ MAXLOG) :
    nred x = truncQ (LOG2E * x + 0.5)
    ∧ (0 ≤ x → nred x = round (LOG2E * x))
    ∧ xred x = (x - (nred x : ℚ) * C1) - (nred x : ℚ) * C2 := by
  refine ⟨rfl, ?_, rfl⟩
  intro hx
  have hnn : (0 : ℚ) ≤ LOG2E * x := mul_nonneg (by norm_num [LOG2E]) hx
  unfold nred truncQ
  rw [if_neg (by push_neg; linarith), round_eq]
  norm_num

/-- Witness for the amended C2 at `x = 5`. -/
theorem nred_trunc_xred_witness :
    MINLOG ≤ 5 ∧ (5 : ℚ) ≤ MAXLOG ∧
      (nred 5 = truncQ (LOG2E * 5 + 0.5)
       ∧ ((0 : ℚ) ≤ 5 → nred 5 = round (LOG2E * (5 : ℚ)))
       ∧ xred 5 = (5 - (nred 5 : ℚ) * C1) - (nred 5 : ℚ) * C2) :=
  ⟨by norm_num [MINLOG], by norm_num [MAXLOG],
    nred_trunc_xred 5 (by norm_num [MINLOG]) (by norm_num [MAXLOG])⟩

/-- C3: `vecexp` maps each of the first `n` cells to exactly `1.0` when
its old value is zero and to `fastexp` of the old value otherwise; in
particular on an all-zero buffer every processed cell becomes exactly
`1.0`. -/
theorem vecexp_elementwise (x : ℕ → ℚ) (n i : ℕ) (hi : i < n) :
    vecexp x n i = (if x i = 0 then 1 else fastexp (x i))
    ∧ vecexp (fun _ => 0) n i = 1 := by
  constructor
  · unfold vecexp
    rw [mapLoop_get, if_pos hi]
  · unfold vecexp
    rw [mapLoop_get, if_pos hi]
    norm_num

/-- Witness for C3 at `x = (fun j => j)`, `n = 2`, `i = 1`. -/
theorem vecexp_elementwise_witness :
    1 < 2 ∧
      (vecexp (fun j => (j : ℚ)) 2 1 = (if ((1 : ℕ) : ℚ) = 0 then 1 else fastexp ((1 : ℕ) : ℚ))
       ∧ vecexp (fun _ => 0) 2 1 = 1) :=
  ⟨by norm_num, vecexp_elementwise (fun j => (j : ℚ)) 2 1 (by norm_num)⟩

/-- C5: each reduction is the left-to-right fold over indices
`0, 1, …, n-1` starting from accumulator `0`: `vecdot` accumulates
`x[i]*y[i]`, `vecsum` accumulates `x[i]`, `vecsumlog` accumulates
`log(x[i])`, in increasing index order. -/
theorem reductions_left_fold (x y : ℕ → ℚ) (L : ℚ → ℚ) (n : ℕ) :
    (vecdot x y n).2 = List.foldl (fun s i => s + x i * y i) 0 (List.range n)
    ∧ (vecsum x n).2 = List.foldl (fun s i => s + x i) 0 (List.range n)
    ∧ (vecsumlog L x n).2 = List.foldl (fun s i => s + L (x i)) 0 (List.range n) := by
  refine ⟨?_, ?_, ?_⟩
  · unfold vecdot
    rw [rwLoop_pure _ (fun _ _ _ => rfl) n n 0 (by omega) (x, y) 0]
    simp [List.range_eq_range']
  · unfold vecsum
    rw [rwLoop_pure _ (fun _ _ _ => rfl) n n 0 (by omega) x 0]
    simp [List.range_eq_range']
  · unfold vecsumlog
    rw [rwLoop_pure _ (fun _ _ _ => rfl) n n 0 (by omega) x 0]
    simp [List.range_eq_range']

/-- C6: `vecdot` is commutative in its two buffers. -/
theorem vecdot_commutative (x y : ℕ → ℚ) (n : ℕ) :
    (vecdot x y n).2 = (vecdot y x n).2 := by
  unfold vecdot
  rw [rwLoop_pure _ (fun _ _ _ => rfl) n n 0 (by omega) (x, y) 0,
    rwLoop_pure _ (fun _ _ _ => rfl) n n 0 (by omega) (y, x) 0]
  have hfun : (fun (a : ℚ) (j : ℕ) => a + x j * y j) = fun a j => a + y j * x j := by
    funext a j
    ring
  simp only []
  rw [hfun]

/-- C7: `vecaadd` with scale `0` is a no-op on the whole buffer, and with
scale `1` it produces exactly what `vecadd` produces. -/
theorem vecaadd_zero_one (y x : ℕ → ℚ) (n : ℕ) :
    vecaadd y 0 x n = y ∧ vecaadd y 1 x n = vecadd y x n := by
  constructor
  · funext j
    unfold vecaadd
    rw [mapLoop_get]
    by_cases hj : j < n
    · simp [hj]
    · simp [hj]
  · funext j
    unfold vecaadd vecadd
    rw [mapLoop_get, mapLoop_get]
    simp

/-- C8: after `veczero`, every one of the first `n` cells is `0`. -/
theorem veczero_elem (x : ℕ → ℚ) (n i : ℕ) (hi : i < n) :
    veczero x n i = 0 := by
  unfold veczero
  rw [if_pos hi]

/-- Witness for C8 at `x = (fun j => j + 7)`, `n = 3`, `i = 2`. -/
theorem veczero_elem_witness :
    2 < 3 ∧ veczero (fun j => (j : ℚ) + 7) 3 2 = 0 :=
  ⟨by norm_num, veczero_elem (fun j => (j : ℚ) + 7) 3 2 (by norm_num)⟩

/-- C9: a cell holding IEEE `-0.0` (numeric value zero, negative-zero
marker set) satisfies the comparison `x[i] == 0.`, so `vecexp` maps it to
exactly `1.0`; `fastexp` is not applied to it. -/
theorem vecexpF_negzero (x : ℕ → F) (n i : ℕ) (hi : i < n)
    (hz : x i = F.mk 0 true) :
    vecexpF x n i = F.mk 1 false := by
  unfold vecexpF
  rw [mapLoop_get, if_pos hi, hz]
  norm_num

/-- Witness for C9 at a buffer whose cell 0 is `-0.0`, `n = 1`, `i = 0`. -/
theorem vecexpF_negzero_witness :
    0 < 1 ∧ (fun _ : ℕ => F.mk 0 true) 0 = F.mk 0 true
    ∧ vecexpF (fun _ => F.mk 0 true) 1 0 = F.mk 1 false :=
  ⟨by norm_num, rfl, vecexpF_negzero (fun _ => F.mk 0 true) 1 0 (by norm_num) rfl⟩

/-- C10: the reductions leave their input buffers exactly as they were:
the final buffer state of `vecdot`, `vecsum` and `vecsumlog` equals the
initial one. -/
theorem reductions_preserve_inputs (x y : ℕ → ℚ) (L : ℚ → ℚ) (n : ℕ) :
    (vecdot x y n).1 = (x, y) ∧ (vecsum x n).1 = x ∧ (vecsumlog L x n).1 = x := by
  refine ⟨?_, ?_, ?_⟩
  · unfold vecdot
    rw [rwLoop_pure _ (fun _ _ _ => rfl) n n 0 (by omega) (x, y) 0]
  · unfold vecsum
    rw [rwLoop_pure _ (fun _ _ _ => rfl) n n 0 (by omega) x 0]
  · unfold vecsumlog
    rw [rwLoop_pure _ (fun _ _ _ => rfl) n n 0 (by omega) x 0]

end Vecmath
